import Mathlib

/-!
Verification of the bufs buffer-pool package (bufs.go).

The embedding models Go byte slices as values carrying the identity of
their backing array, the bytes visible through the slice, and the
capacity of the backing array.  The pool type Buffers keeps the full
backing slot array together with the current length of the pool slice
(the free-region boundary) and a counter supplying fresh backing-array
identities for calls of make.  Go panics are modelled as error values:
Alloc panics with a dedicated error value, while Free panics through
the runtime bounds check of the reslicing b[:len(b)+1].
-/

namespace Bufs

/-- A Go byte slice value: identity of the backing array, the bytes
visible through the slice, and the capacity of the backing array. -/
structure GoSlice where
  id : Nat
  data : List Nat
  cap : Nat
deriving DecidableEq, Repr

instance : Inhabited GoSlice := ⟨⟨0, [], 0⟩⟩

/-- len of a Go slice value. -/
def GoSlice.len (v : GoSlice) : Nat := v.data.length

/-- The two panic signals of the package: Alloc panics with the error
value of errors.New, Free panics through the slice-bounds runtime
check.  Both are recoverable Go panics carrying distinct payloads. -/
inductive BufsErr where
  | allocOutOfBuffers
  | sliceBoundsOutOfRange
deriving DecidableEq, Repr

deriving instance DecidableEq for Except

/-- The pool: arr is the full backing array of slots (its length is the
fixed pool capacity, cap of the pool slice), active is the current
length of the pool slice (the number of free slots), fresh supplies
identities for newly made backing arrays. -/
structure Buffers where
  arr : List GoSlice
  active : Nat
  fresh : Nat
deriving DecidableEq, Repr

/-- New n, i.e. make(Buffers, n): n nil slots, all free. -/
def New (n : Nat) : Buffers :=
  ⟨(List.range n).map (fun i => ⟨i, [], 0⟩), n, n⟩

/-- The free region: the slots visible through the pool slice. -/
def Buffers.freeRegion (p : Buffers) : List GoSlice := p.arr.take p.active

/-- The scan loop of Alloc, translated verbatim: one pass over the free
region, tracking (biggest, biggestI) with condition ln >= biggest and
(best, bestI) with condition ln >= n && (bestI < 0 || best > ln).
Accumulators start as biggest = 0, biggestI = -1, best = 0, bestI = -1. -/
def allocScan (n : Int) : Nat → Int → Int → Int → Int → List GoSlice → Int × Int × Int × Int
  | _, biggest, biggestI, best, bestI, [] => (biggest, biggestI, best, bestI)
  | i, biggest, biggestI, best, bestI, v :: rest =>
    let ln : Int := (v.data.length : Int)
    let bg : Int × Int := if biggest ≤ ln then (ln, (i : Int)) else (biggest, biggestI)
    let bs : Int × Int :=
      if n ≤ ln ∧ (bestI < 0 ∨ ln < best) then (ln, (i : Int)) else (best, bestI)
    allocScan n (i + 1) bg.1 bg.2 bs.1 bs.2 rest

/-- Alloc, translated from bufs.go: panic when the pool slice is empty;
otherwise scan; if best >= n return b[bestI] (note: the source returns
the slot without reslicing it to n), swap it to the last free position
and shrink the pool slice; otherwise make a fresh slice of length n,
store it at biggestI, swap and shrink likewise. -/
def Buffers.Alloc (p : Buffers) (n : Nat) : Except BufsErr GoSlice × Buffers :=
  let b := p.arr.take p.active
  if b.length = 0 then
    (.error .allocOutOfBuffers, p)
  else
    let s := allocScan (n : Int) 0 0 (-1) 0 (-1) b
    let biggestI : Int := s.2.1
    let best : Int := s.2.2.1
    let bestI : Int := s.2.2.2
    let last := b.length - 1
    if (n : Int) ≤ best then
      let r := b.getD bestI.toNat default
      let bl := b.getD last default
      let b2 := (b.set last r).set bestI.toNat bl
      (.ok r, ⟨b2 ++ p.arr.drop p.active, last, p.fresh⟩)
    else
      let r : GoSlice := ⟨p.fresh, List.replicate n 0, n⟩
      let b1 := b.set biggestI.toNat r
      let b2 := (b1.set last (b1.getD biggestI.toNat default)).set biggestI.toNat
        (b1.getD last default)
      (.ok r, ⟨b2 ++ p.arr.drop p.active, last, p.fresh + 1⟩)

/-- Calloc: Alloc, then zero the returned slice in place.  The Go loop
for i := range r writes zeros through the whole returned slice, so the
checked-out slot (which shares the backing array with r) is zeroed as
well; the model updates the stored slot at the boundary accordingly. -/
def Buffers.Calloc (p : Buffers) (n : Nat) : Except BufsErr GoSlice × Buffers :=
  match p.Alloc n with
  | (.ok r, p1) =>
    let r0 : GoSlice := ⟨r.id, List.replicate r.data.length 0, r.cap⟩
    (.ok r0, ⟨p1.arr.set p1.active r0, p1.active, p1.fresh⟩)
  | (.error e, p1) => (.error e, p1)

/-- Free, translated from bufs.go: b = b[:len(b)+1].  The reslicing is
legal exactly when len(b)+1 <= cap(b); otherwise the Go runtime raises
the slice-bounds panic. -/
def Buffers.Free (p : Buffers) : Except BufsErr Unit × Buffers :=
  if p.active + 1 ≤ p.arr.length then (.ok (), ⟨p.arr, p.active + 1, p.fresh⟩)
  else (.error .sliceBoundsOutOfRange, p)

/-- Stats, translated from bufs.go: reslice the pool slice to its full
capacity and accumulate cap(v) over every slot. -/
def Buffers.Stats (p : Buffers) : Nat :=
  (p.arr.map GoSlice.cap).foldl (· + ·) 0

/-- Run a sequence of Alloc calls with the given sizes, stopping at the
first panic. -/
def allocTimes : Buffers → List Nat → Except BufsErr Buffers
  | p, [] => .ok p
  | p, n :: ns =>
    match p.Alloc n with
    | (.ok _, p1) => allocTimes p1 ns
    | (.error e, _) => .error e

/-- Reachable pool states, carrying the ghost stack of outstanding
borrowed buffers (most recent first). -/
inductive Reach : Buffers → List GoSlice → Prop
  | init (c : Nat) : Reach (New c) []
  | alloc {p stk p' r} (n : Nat) : Reach p stk → p.Alloc n = (.ok r, p') →
      Reach p' (r :: stk)
  | calloc {p stk p' r} (n : Nat) : Reach p stk → p.Calloc n = (.ok r, p') →
      Reach p' (r :: stk)
  | free {p stk p' r} : Reach p (r :: stk) → p.Free = (.ok (), p') → Reach p' stk

/-- Projection of allocScan onto the (biggest, biggestI) accumulator. -/
def bigLoop : Nat → Int → Int → List GoSlice → Int × Int
  | _, biggest, biggestI, [] => (biggest, biggestI)
  | i, biggest, biggestI, v :: rest =>
    let ln : Int := (v.data.length : Int)
    if biggest ≤ ln then bigLoop (i + 1) ln (i : Int) rest
    else bigLoop (i + 1) biggest biggestI rest

/-- Projection of allocScan onto the (best, bestI) accumulator. -/
def bestLoop (n : Int) : Nat → Int → Int → List GoSlice → Int × Int
  | _, best, bestI, [] => (best, bestI)
  | i, best, bestI, v :: rest =>
    let ln : Int := (v.data.length : Int)
    if n ≤ ln ∧ (bestI < 0 ∨ ln < best) then bestLoop n (i + 1) ln (i : Int) rest
    else bestLoop n (i + 1) best bestI rest

/-- Meaning of the (biggest, biggestI) accumulator after the processed
prefix seen: either nothing was processed, or biggestI is the position
of the last maximal slot of the prefix. -/
def BigInv (seen : List GoSlice) (B BI : Int) : Prop :=
  (B = 0 ∧ BI = -1 ∧ seen = []) ∨
  (∃ j, j < seen.length ∧ BI = (j : Int) ∧ B = ((seen.getD j default).len : Int) ∧
    (∀ k, k < seen.length → ((seen.getD k default).len : Int) ≤ B) ∧
    (∀ k, j < k → k < seen.length → ((seen.getD k default).len : Int) < B))

/-- Meaning of the (best, bestI) accumulator after the processed prefix
seen: either no slot of the prefix fits the request, or bestI is the
position of the first smallest fitting slot of the prefix. -/
def BestInv (n : Int) (seen : List GoSlice) (B BI : Int) : Prop :=
  (B = 0 ∧ BI = -1 ∧ ∀ v ∈ seen, (v.len : Int) < n) ∨
  (∃ j, j < seen.length ∧ BI = (j : Int) ∧ B = ((seen.getD j default).len : Int) ∧ n ≤ B ∧
    (∀ k, k < seen.length → n ≤ ((seen.getD k default).len : Int) →
      B ≤ ((seen.getD k default).len : Int)) ∧
    (∀ k, k < j → n ≤ ((seen.getD k default).len : Int) →
      B < ((seen.getD k default).len : Int)))

/-- The pool invariant, relative to the ghost stack of outstanding
borrows: the boundary is in range, the checked-out suffix of the slot
array is exactly the stack of outstanding borrows (most recent first),
backing identities are pairwise distinct, and every identity is below
the freshness counter. -/
def Inv (p : Buffers) (stk : List GoSlice) : Prop :=
  p.active ≤ p.arr.length ∧ p.arr.drop p.active = stk ∧
  (p.arr.map GoSlice.id).Nodup ∧ ∀ x ∈ p.arr.map GoSlice.id, x < p.fresh

theorem perm_getD_cons_eraseIdx (l : List α) (k : Nat) (d : α) (h : k < l.length) :
    l.Perm (l.getD k d :: l.eraseIdx k) := by
  conv_lhs => rw [← List.take_append_drop k l, List.drop_eq_getElem_cons h]
  rw [List.getD_eq_getElem _ _ h, List.eraseIdx_eq_take_drop_succ]
  exact List.perm_middle

theorem perm_set_eraseIdx (l : List α) (k : Nat) (x d : α) (h : k < l.length) :
    (l.set k x).Perm (x :: l.eraseIdx k) := by
  rw [List.set_eq_take_append_cons_drop, if_pos h, List.eraseIdx_eq_take_drop_succ]
  exact List.perm_middle

theorem set_getD_self (l : List α) (k : Nat) (d : α) : l.set k (l.getD k d) = l := by
  by_cases h : k < l.length
  · rw [List.getD_eq_getElem _ _ h, List.set_eq_take_append_cons_drop, if_pos h,
      ← List.drop_eq_getElem_cons h, List.take_append_drop]
  · exact List.set_eq_of_length_le (Nat.le_of_not_lt h)

theorem cons_set_swap_perm (t : List α) (a : α) (d : α) (m : Nat) (hm : m < t.length) :
    ((t.getD m d) :: t.set m a).Perm (a :: t) :=
  (((perm_set_eraseIdx t m a d hm).cons _).trans (List.Perm.swap _ _ _)).trans
    ((perm_getD_cons_eraseIdx t m d hm).cons _).symm

theorem set_set_perm (l : List α) (d : α) :
    ∀ i j : Nat, i < l.length → j < l.length →
      ((l.set i (l.getD j d)).set j (l.getD i d)).Perm l := by
  induction l with
  | nil => intro i j hi _; exact absurd hi (by simp)
  | cons a t ih =>
    intro i j hi hj
    cases i with
    | zero =>
      cases j with
      | zero => simp
      | succ m =>
        have hm : m < t.length := by simpa using hj
        simp only [List.getD_cons_succ, List.getD_cons_zero, List.set_cons_zero,
          List.set_cons_succ]
        exact cons_set_swap_perm t a d m hm
    | succ k =>
      cases j with
      | zero =>
        have hk : k < t.length := by simpa using hi
        simp only [List.getD_cons_succ, List.getD_cons_zero, List.set_cons_zero,
          List.set_cons_succ]
        exact cons_set_swap_perm t a d k hk
      | succ m =>
        have hk : k < t.length := by simpa using hi
        have hm : m < t.length := by simpa using hj
        simp only [List.getD_cons_succ, List.set_cons_succ]
        exact (ih k m hk hm).cons a

theorem nodup_set_of_not_mem (l : List α) (k : Nat) (x : α) (h : k < l.length)
    (hnd : l.Nodup) (hx : x ∉ l) : (l.set k x).Nodup := by
  refine (perm_set_eraseIdx l k x x h).symm.nodup ?_
  rw [List.nodup_cons]
  exact ⟨fun hmem => hx ((List.eraseIdx_sublist l k).subset hmem),
    hnd.sublist (List.eraseIdx_sublist l k)⟩

theorem allocScan_eq (l : List GoSlice) : ∀ (n : Int) (i : Nat) (B BI s sI : Int),
    allocScan n i B BI s sI l =
      ((bigLoop i B BI l).1, (bigLoop i B BI l).2,
        (bestLoop n i s sI l).1, (bestLoop n i s sI l).2) := by
  induction l with
  | nil => intro n i B BI s sI; rfl
  | cons v rest ih =>
    intro n i B BI s sI
    simp only [allocScan, bigLoop, bestLoop]
    rw [ih]
    split_ifs <;> rfl

theorem getD_mem_of_lt (l : List α) (k : Nat) (d : α) (h : k < l.length) : l.getD k d ∈ l := by
  rw [List.getD_eq_getElem _ _ h]
  exact List.getElem_mem h

theorem bigLoop_inv : ∀ (rest seen : List GoSlice) (B BI : Int),
    BigInv seen B BI →
    BigInv (seen ++ rest) (bigLoop seen.length B BI rest).1 (bigLoop seen.length B BI rest).2 := by
  intro rest
  induction rest with
  | nil => intro seen B BI h; simpa using h
  | cons v rest ih =>
    intro seen B BI h
    have hlen1 : (seen ++ [v]).length = seen.length + 1 := by simp
    have hgetv : (seen ++ [v]).getD seen.length default = v := by
      rw [List.getD_append_right _ _ _ _ (Nat.le_refl _), Nat.sub_self]; rfl
    have hgetlt : ∀ k, k < seen.length → (seen ++ [v]).getD k default = seen.getD k default :=
      fun k hk => List.getD_append _ _ _ _ hk
    have hstep : ∀ B2 BI2, BigInv (seen ++ [v]) B2 BI2 →
        BigInv ((seen ++ [v]) ++ rest) (bigLoop (seen ++ [v]).length B2 BI2 rest).1
          (bigLoop (seen ++ [v]).length B2 BI2 rest).2 := fun B2 BI2 h2 => ih (seen ++ [v]) B2 BI2 h2
    have hassoc : seen ++ v :: rest = (seen ++ [v]) ++ rest := by simp
    rw [hassoc]
    by_cases hc : B ≤ ((v.data.length : Nat) : Int)
    · have hrec : bigLoop seen.length B BI (v :: rest) =
          bigLoop (seen ++ [v]).length ((v.data.length : Nat) : Int) (seen.length : Int) rest := by
        simp only [bigLoop, if_pos hc, hlen1]
      rw [hrec]
      refine hstep _ _ (Or.inr ⟨seen.length, by simp, rfl, ?_, ?_, ?_⟩)
      · rw [hgetv]; rfl
      · intro k hk
        rw [hlen1] at hk
        rcases Nat.lt_succ_iff_lt_or_eq.mp hk with hk' | hk'
        · rw [hgetlt k hk']
          rcases h with ⟨_, _, hnil⟩ | ⟨j, hj, _, hB, hmax, _⟩
          · subst hnil; exact absurd hk' (Nat.not_lt_zero k)
          · exact le_trans (hmax k hk') hc
        · subst hk'; rw [hgetv]; exact le_of_eq rfl
      · intro k hk hk'
        rw [hlen1] at hk'
        exact absurd hk (Nat.not_lt.mpr (Nat.lt_succ_iff.mp hk'))
    · have hrec : bigLoop seen.length B BI (v :: rest) =
          bigLoop (seen ++ [v]).length B BI rest := by
        simp only [bigLoop, if_neg hc, hlen1]
      rw [hrec]
      rcases h with ⟨hB0, _, hnil⟩ | ⟨j, hj, hBI, hB, hmax, hafter⟩
      · exact absurd (hB0 ▸ Int.ofNat_nonneg v.data.length) hc
      · refine hstep _ _ (Or.inr ⟨j, by rw [hlen1]; exact Nat.lt_succ_of_lt hj, hBI, ?_, ?_, ?_⟩)
        · rw [hgetlt j hj]; exact hB
        · intro k hk
          rw [hlen1] at hk
          rcases Nat.lt_succ_iff_lt_or_eq.mp hk with hk' | hk'
          · rw [hgetlt k hk']; exact hmax k hk'
          · subst hk'; rw [hgetv]; exact le_of_lt (Int.not_le.mp hc)
        · intro k hjk hk
          rw [hlen1] at hk
          rcases Nat.lt_succ_iff_lt_or_eq.mp hk with hk' | hk'
          · rw [hgetlt k hk']; exact hafter k hjk hk'
          · subst hk'; rw [hgetv]; exact Int.not_le.mp hc

theorem bestLoop_inv (n : Int) : ∀ (rest seen : List GoSlice) (B BI : Int),
    BestInv n seen B BI →
    BestInv n (seen ++ rest) (bestLoop n seen.length B BI rest).1
      (bestLoop n seen.length B BI rest).2 := by
  intro rest
  induction rest with
  | nil => intro seen B BI h; simpa using h
  | cons v rest ih =>
    intro seen B BI h
    have hlen1 : (seen ++ [v]).length = seen.length + 1 := by simp
    have hgetv : (seen ++ [v]).getD seen.length default = v := by
      rw [List.getD_append_right _ _ _ _ (Nat.le_refl _), Nat.sub_self]; rfl
    have hgetlt : ∀ k, k < seen.length → (seen ++ [v]).getD k default = seen.getD k default :=
      fun k hk => List.getD_append _ _ _ _ hk
    have hstep : ∀ B2 BI2, BestInv n (seen ++ [v]) B2 BI2 →
        BestInv n ((seen ++ [v]) ++ rest) (bestLoop n (seen ++ [v]).length B2 BI2 rest).1
          (bestLoop n (seen ++ [v]).length B2 BI2 rest).2 :=
      fun B2 BI2 h2 => ih (seen ++ [v]) B2 BI2 h2
    have hassoc : seen ++ v :: rest = (seen ++ [v]) ++ rest := by simp
    rw [hassoc]
    by_cases hc : n ≤ ((v.data.length : Nat) : Int) ∧ (BI < 0 ∨ ((v.data.length : Nat) : Int) < B)
    · have hrec : bestLoop n seen.length B BI (v :: rest) =
          bestLoop n (seen ++ [v]).length ((v.data.length : Nat) : Int) (seen.length : Int) rest := by
        simp only [bestLoop, if_pos hc, hlen1]
      rw [hrec]
      refine hstep _ _ (Or.inr ⟨seen.length, by simp, rfl, ?_, hc.1, ?_, ?_⟩)
      · rw [hgetv]; rfl
      · intro k hk hfit
        rw [hlen1] at hk
        rcases Nat.lt_succ_iff_lt_or_eq.mp hk with hk' | hk'
        · rw [hgetlt k hk'] at hfit ⊢
          rcases h with ⟨_, _, hnone⟩ | ⟨j, hj, hBI, hB, hnB, hmin, _⟩
          · exact absurd hfit (Int.not_le.mpr (hnone _ (getD_mem_of_lt _ _ _ hk')))
          · rcases hc.2 with hneg | hlt
            · exact absurd (hBI ▸ Int.ofNat_nonneg j) (Int.not_le.mpr hneg)
            · exact le_trans (le_of_lt hlt) (hmin k hk' hfit)
        · subst hk'; rw [hgetv]; exact le_of_eq rfl
      · intro k hk hfit
        rw [hgetlt k hk] at hfit ⊢
        rcases h with ⟨_, _, hnone⟩ | ⟨j, hj, hBI, hB, hnB, hmin, _⟩
        · exact absurd hfit (Int.not_le.mpr (hnone _ (getD_mem_of_lt _ _ _ hk)))
        · rcases hc.2 with hneg | hlt
          · exact absurd (hBI ▸ Int.ofNat_nonneg j) (Int.not_le.mpr hneg)
          · exact lt_of_lt_of_le hlt (hmin k hk hfit)
    · have hrec : bestLoop n seen.length B BI (v :: rest) =
          bestLoop n (seen ++ [v]).length B BI rest := by
        simp only [bestLoop, if_neg hc, hlen1]
      rw [hrec]
      rcases h with ⟨hB0, hBI0, hnone⟩ | ⟨j, hj, hBI, hB, hnB, hmin, hfirst⟩
      · have hvlt : ((v.data.length : Nat) : Int) < n := by
          by_contra hle
          exact hc ⟨Int.not_lt.mp hle, Or.inl (by rw [hBI0]; decide)⟩
        refine hstep _ _ (Or.inl ⟨hB0, hBI0, ?_⟩)
        intro w hw
        rcases List.mem_append.mp hw with hw | hw
        · exact hnone w hw
        · rcases List.mem_singleton.mp hw with rfl; exact hvlt
      · have hnotneg : ¬ BI < 0 := by rw [hBI]; exact Int.not_lt.mpr (Int.ofNat_nonneg j)
        have hvcase : ¬ n ≤ ((v.data.length : Nat) : Int) ∨ B ≤ ((v.data.length : Nat) : Int) := by
          by_cases hnv : n ≤ ((v.data.length : Nat) : Int)
          · right
            by_contra hBv
            exact hc ⟨hnv, Or.inr (Int.not_le.mp hBv)⟩
          · exact Or.inl hnv
        refine hstep _ _ (Or.inr ⟨j, by rw [hlen1]; exact Nat.lt_succ_of_lt hj, hBI, ?_, hnB,
          ?_, ?_⟩)
        · rw [hgetlt j hj]; exact hB
        · intro k hk hfit
          rw [hlen1] at hk
          rcases Nat.lt_succ_iff_lt_or_eq.mp hk with hk' | hk'
          · rw [hgetlt k hk'] at hfit ⊢; exact hmin k hk' hfit
          · subst hk'
            rw [hgetv] at hfit ⊢
            rcases hvcase with hno | hyes
            · exact absurd hfit hno
            · exact hyes
        · intro k hkj hfit
          have hk' : k < seen.length := Nat.lt_of_lt_of_le hkj (Nat.le_of_lt hj)
          rw [hgetlt k hk'] at hfit ⊢
          exact hfirst k hkj hfit

/-- When no slot fits, the (best, bestI) accumulator never changes. -/
theorem bestLoop_nofit (n : Int) : ∀ (l : List GoSlice) (i : Nat) (B BI : Int),
    (∀ v ∈ l, (v.len : Int) < n) → bestLoop n i B BI l = (B, BI) := by
  intro l
  induction l with
  | nil => intro i B BI _; rfl
  | cons v rest ih =>
    intro i B BI h
    have hv : ¬ (n ≤ ((v.data.length : Nat) : Int) ∧ (BI < 0 ∨ ((v.data.length : Nat) : Int) < B)) :=
      fun hcon => absurd hcon.1 (Int.not_le.mpr (h v (List.mem_cons_self v rest)))
    simp only [bestLoop, if_neg hv]
    exact ih (i + 1) B BI fun w hw => h w (List.mem_cons_of_mem v hw)

theorem Alloc_empty (p : Buffers) (n : Nat) (h0 : (p.arr.take p.active).length = 0) :
    p.Alloc n = (.error .allocOutOfBuffers, p) := by
  simp only [Buffers.Alloc]
  rw [if_pos h0]

theorem Alloc_bestfit (p : Buffers) (n : Nat) (h0 : ¬ (p.arr.take p.active).length = 0)
    (hcond : (n : Int) ≤ (bestLoop (n : Int) 0 0 (-1) (p.arr.take p.active)).1) :
    p.Alloc n =
      (.ok ((p.arr.take p.active).getD
          (bestLoop (n : Int) 0 0 (-1) (p.arr.take p.active)).2.toNat default),
        ⟨(((p.arr.take p.active).set ((p.arr.take p.active).length - 1)
            ((p.arr.take p.active).getD
              (bestLoop (n : Int) 0 0 (-1) (p.arr.take p.active)).2.toNat default)).set
            (bestLoop (n : Int) 0 0 (-1) (p.arr.take p.active)).2.toNat
            ((p.arr.take p.active).getD ((p.arr.take p.active).length - 1) default))
          ++ p.arr.drop p.active,
          (p.arr.take p.active).length - 1, p.fresh⟩) := by
  simp only [Buffers.Alloc]
  rw [if_neg h0, allocScan_eq, if_pos hcond]

theorem Alloc_growth (p : Buffers) (n : Nat) (h0 : ¬ (p.arr.take p.active).length = 0)
    (hcond : ¬ (n : Int) ≤ (bestLoop (n : Int) 0 0 (-1) (p.arr.take p.active)).1) :
    p.Alloc n =
      (.ok ⟨p.fresh, List.replicate n 0, n⟩,
        ⟨((((p.arr.take p.active).set (bigLoop 0 0 (-1) (p.arr.take p.active)).2.toNat
              ⟨p.fresh, List.replicate n 0, n⟩).set ((p.arr.take p.active).length - 1)
              (((p.arr.take p.active).set (bigLoop 0 0 (-1) (p.arr.take p.active)).2.toNat
                ⟨p.fresh, List.replicate n 0, n⟩).getD
                (bigLoop 0 0 (-1) (p.arr.take p.active)).2.toNat default)).set
            (bigLoop 0 0 (-1) (p.arr.take p.active)).2.toNat
            (((p.arr.take p.active).set (bigLoop 0 0 (-1) (p.arr.take p.active)).2.toNat
              ⟨p.fresh, List.replicate n 0, n⟩).getD
              ((p.arr.take p.active).length - 1) default))
          ++ p.arr.drop p.active,
          (p.arr.take p.active).length - 1, p.fresh + 1⟩) := by
  simp only [Buffers.Alloc]
  rw [if_neg h0, allocScan_eq, if_neg hcond]

/-- When the then-branch of Alloc is taken, bestI is the position of
the first smallest fitting slot of the free region. -/
theorem bestfit_index (n : Nat) (b : List GoSlice) (hbne : b ≠ [])
    (hcond : (n : Int) ≤ (bestLoop (n : Int) 0 0 (-1) b).1) :
    ∃ j, j < b.length ∧ (bestLoop (n : Int) 0 0 (-1) b).2 = (j : Int) ∧
      (bestLoop (n : Int) 0 0 (-1) b).1 = ((b.getD j default).len : Int) ∧
      n ≤ (b.getD j default).len ∧
      (∀ k, k < b.length → n ≤ (b.getD k default).len →
        (b.getD j default).len ≤ (b.getD k default).len) ∧
      (∀ k, k < j → n ≤ (b.getD k default).len →
        (b.getD j default).len < (b.getD k default).len) := by
  have hinv := bestLoop_inv (n : Int) b [] 0 (-1) (Or.inl ⟨rfl, rfl, by simp⟩)
  simp only [List.nil_append, List.length_nil] at hinv
  rcases hinv with ⟨hB0, _, hnone⟩ | ⟨j, hj, hBI, hB, hnB, hmin, hfirst⟩
  · rcases List.exists_mem_of_ne_nil b hbne with ⟨w, hw⟩
    have h1 : (w.len : Int) < (n : Int) := hnone w hw
    have h2 : (n : Int) ≤ 0 := hB0 ▸ hcond
    exact absurd (lt_of_lt_of_le h1 h2) (Int.not_lt.mpr (Int.ofNat_nonneg w.len))
  · refine ⟨j, hj, hBI, hB, ?_, ?_, ?_⟩
    · exact_mod_cast hB ▸ hnB
    · intro k hk hfit
      exact_mod_cast hB ▸ hmin k hk (by exact_mod_cast hfit)
    · intro k hk hfit
      exact_mod_cast hB ▸ hfirst k hk (by exact_mod_cast hfit)

/-- biggestI is the position of the last largest slot of the free
region. -/
theorem biggest_index (b : List GoSlice) (hbne : b ≠ []) :
    ∃ g, g < b.length ∧ (bigLoop 0 0 (-1) b).2 = (g : Int) ∧
      (bigLoop 0 0 (-1) b).1 = ((b.getD g default).len : Int) ∧
      (∀ k, k < b.length → (b.getD k default).len ≤ (b.getD g default).len) ∧
      (∀ k, g < k → k < b.length → (b.getD k default).len < (b.getD g default).len) := by
  have hinv := bigLoop_inv b [] 0 (-1) (Or.inl ⟨rfl, rfl, rfl⟩)
  simp only [List.nil_append, List.length_nil] at hinv
  rcases hinv with ⟨_, _, hnil⟩ | ⟨g, hg, hBI, hB, hmax, hafter⟩
  · exact absurd hnil hbne
  · refine ⟨g, hg, hBI, hB, ?_, ?_⟩
    · intro k hk
      exact_mod_cast hB ▸ hmax k hk
    · intro k hgk hk
      exact_mod_cast hB ▸ hafter k hgk hk

/-- Shape of every successful Alloc: the free region was nonempty, the
boundary moves down by one, the array keeps its length, the slot stored
at the new boundary is the returned buffer, and the array is either a
permutation of the old one (reuse) or of the old one with one free slot
replaced by the freshly made slice (growth). -/
theorem Alloc_ok_core (p : Buffers) (n : Nat) (r : GoSlice) (p' : Buffers)
    (hwf : p.active ≤ p.arr.length) (h : p.Alloc n = (.ok r, p')) :
    0 < p.active ∧ p'.active = p.active - 1 ∧ p'.arr.length = p.arr.length ∧
    p'.arr.drop p'.active = r :: p.arr.drop p.active ∧
    ((p'.fresh = p.fresh ∧ p'.arr.Perm p.arr ∧ r ∈ p.arr.take p.active) ∨
      (p'.fresh = p.fresh + 1 ∧ r.id = p.fresh ∧
        ∃ j, j < p.active ∧ p'.arr.Perm (p.arr.set j r))) := by
  have hblen : (p.arr.take p.active).length = p.active := by
    rw [List.length_take]
    exact Nat.min_eq_left hwf
  by_cases h0 : (p.arr.take p.active).length = 0
  · rw [Alloc_empty p n h0] at h
    exact absurd (congrArg Prod.fst h) (by simp)
  · have hbne : p.arr.take p.active ≠ [] := fun hnil => h0 (by rw [hnil]; rfl)
    have hpos : 0 < p.active := Nat.pos_of_ne_zero (fun hz => h0 (by rw [hblen, hz]))
    have hlastlt : (p.arr.take p.active).length - 1 < (p.arr.take p.active).length := by
      omega
    by_cases hcond : (n : Int) ≤ (bestLoop (n : Int) 0 0 (-1) (p.arr.take p.active)).1
    · obtain ⟨j, hj, hBI, hBeq, hfit, hmin, hfirst⟩ := bestfit_index n _ hbne hcond
      rw [Alloc_bestfit p n h0 hcond, hBI, Int.toNat_natCast] at h
      rw [Prod.mk.injEq] at h
      obtain ⟨h1, h2⟩ := h
      have hr : r = (p.arr.take p.active).getD j default := by
        injection h1 with h1'
        exact h1'.symm
      subst hr
      subst h2
      refine ⟨hpos, by simp [hblen], ?_, ?_, ?_⟩
      · simp only [List.length_append, List.length_set, List.length_drop, hblen]
        omega
      · have hb2len : (((p.arr.take p.active).set ((p.arr.take p.active).length - 1)
            ((p.arr.take p.active).getD j default)).set j
            ((p.arr.take p.active).getD ((p.arr.take p.active).length - 1) default)).length =
            (p.arr.take p.active).length := by
          simp
        have hle : (p.arr.take p.active).length - 1 ≤ (((p.arr.take p.active).set
            ((p.arr.take p.active).length - 1) ((p.arr.take p.active).getD j default)).set j
            ((p.arr.take p.active).getD ((p.arr.take p.active).length - 1) default)).length := by
          rw [hb2len]; omega
        have hlast2 : (p.arr.take p.active).length - 1 < (((p.arr.take p.active).set
            ((p.arr.take p.active).length - 1) ((p.arr.take p.active).getD j default)).set j
            ((p.arr.take p.active).getD ((p.arr.take p.active).length - 1) default)).length := by
          rw [hb2len]; omega
        have hval : (((p.arr.take p.active).set ((p.arr.take p.active).length - 1)
            ((p.arr.take p.active).getD j default)).set j
            ((p.arr.take p.active).getD ((p.arr.take p.active).length - 1) default))[
              (p.arr.take p.active).length - 1] =
            (p.arr.take p.active).getD j default := by
          by_cases hjl : j = (p.arr.take p.active).length - 1
          · subst hjl
            rw [List.getElem_set_self]
          · rw [List.getElem_set_ne hjl, List.getElem_set_self]
        simp only [Buffers.arr, Buffers.active]
        rw [List.drop_append_of_le_length (by rw [hb2len]; omega)]
        rw [List.drop_eq_getElem_cons (by rw [hb2len]; omega)]
        have hnil2 : (((p.arr.take p.active).set ((p.arr.take p.active).length - 1)
            ((p.arr.take p.active).getD j default)).set j
            ((p.arr.take p.active).getD ((p.arr.take p.active).length - 1) default)).drop
            ((p.arr.take p.active).length - 1 + 1) = [] := by
          rw [List.drop_eq_nil_iff, hb2len]
          omega
        rw [hnil2, List.cons_append, List.nil_append, hval]
      · left
        refine ⟨rfl, ?_, getD_mem_of_lt _ _ _ hj⟩
        have hperm := set_set_perm (p.arr.take p.active) default
          ((p.arr.take p.active).length - 1) j hlastlt hj
        have := hperm.append_right (p.arr.drop p.active)
        rwa [List.take_append_drop] at this
    · obtain ⟨g, hg, hBI, hBeq, hmax, hafter⟩ := biggest_index _ hbne
      rw [Alloc_growth p n h0 hcond, hBI, Int.toNat_natCast] at h
      rw [Prod.mk.injEq] at h
      obtain ⟨h1, h2⟩ := h
      have hr : r = (⟨p.fresh, List.replicate n 0, n⟩ : GoSlice) := by
        injection h1 with h1'
        exact h1'.symm
      subst hr
      subst h2
      have hb1len : ((p.arr.take p.active).set g ⟨p.fresh, List.replicate n 0, n⟩).length =
          (p.arr.take p.active).length := by simp
      refine ⟨hpos, by simp [hblen], ?_, ?_, ?_⟩
      · simp only [List.length_append, List.length_set, List.length_drop, hblen]
        omega
      · have hb2len : ((((p.arr.take p.active).set g ⟨p.fresh, List.replicate n 0, n⟩).set
            ((p.arr.take p.active).length - 1)
            (((p.arr.take p.active).set g ⟨p.fresh, List.replicate n 0, n⟩).getD g default)).set g
            (((p.arr.take p.active).set g ⟨p.fresh, List.replicate n 0, n⟩).getD
              ((p.arr.take p.active).length - 1) default)).length =
            (p.arr.take p.active).length := by
          simp
        have hlast2 : (p.arr.take p.active).length - 1 < ((((p.arr.take p.active).set g
            ⟨p.fresh, List.replicate n 0, n⟩).set ((p.arr.take p.active).length - 1)
            (((p.arr.take p.active).set g ⟨p.fresh, List.replicate n 0, n⟩).getD g default)).set g
            (((p.arr.take p.active).set g ⟨p.fresh, List.replicate n 0, n⟩).getD
              ((p.arr.take p.active).length - 1) default)).length := by
          rw [hb2len]; omega
        have hval : ((((p.arr.take p.active).set g ⟨p.fresh, List.replicate n 0, n⟩).set
            ((p.arr.take p.active).length - 1)
            (((p.arr.take p.active).set g ⟨p.fresh, List.replicate n 0, n⟩).getD g default)).set g
            (((p.arr.take p.active).set g ⟨p.fresh, List.replicate n 0, n⟩).getD
              ((p.arr.take p.active).length - 1) default))[
              (p.arr.take p.active).length - 1] =
            (⟨p.fresh, List.replicate n 0, n⟩ : GoSlice) := by
          by_cases hgl : g = (p.arr.take p.active).length - 1
          · subst hgl
            rw [List.getElem_set_self]
            rw [List.getD_eq_getElem _ default (by rw [hb1len]; exact hg)]
            rw [List.getElem_set_self]
          · rw [List.getElem_set_ne hgl]
            rw [List.getElem_set_self]
            rw [List.getD_eq_getElem _ default (by rw [hb1len]; exact hg)]
            rw [List.getElem_set_self]
        simp only [Buffers.arr, Buffers.active]
        rw [List.drop_append_of_le_length (by rw [hb2len]; omega)]
        rw [List.drop_eq_getElem_cons (by rw [hb2len]; omega)]
        have hnil2 : ((((p.arr.take p.active).set g ⟨p.fresh, List.replicate n 0, n⟩).set
            ((p.arr.take p.active).length - 1)
            (((p.arr.take p.active).set g ⟨p.fresh, List.replicate n 0, n⟩).getD g default)).set g
            (((p.arr.take p.active).set g ⟨p.fresh, List.replicate n 0, n⟩).getD
              ((p.arr.take p.active).length - 1) default)).drop
            ((p.arr.take p.active).length - 1 + 1) = [] := by
          rw [List.drop_eq_nil_iff, hb2len]
          omega
        rw [hnil2, List.cons_append, List.nil_append, hval]
      · right
        refine ⟨rfl, rfl, g, hblen ▸ hg, ?_⟩
        have hperm := set_set_perm ((p.arr.take p.active).set g ⟨p.fresh, List.replicate n 0, n⟩)
          default ((p.arr.take p.active).length - 1) g
          (by rw [hb1len]; exact hlastlt) (by rw [hb1len]; exact hg)
        have hstep := hperm.append_right (p.arr.drop p.active)
        have harr : ((p.arr.take p.active).set g ⟨p.fresh, List.replicate n 0, n⟩)
            ++ p.arr.drop p.active = p.arr.set g ⟨p.fresh, List.replicate n 0, n⟩ := by
          rw [← List.set_append_left _ _ hg, List.take_append_drop]
        rwa [harr] at hstep

theorem Free_ok (p : Buffers) (h : p.active < p.arr.length) :
    p.Free = (.ok (), ⟨p.arr, p.active + 1, p.fresh⟩) := by
  simp only [Buffers.Free]
  rw [if_pos (Nat.succ_le_of_lt h)]

theorem Free_err (p : Buffers) (h : p.arr.length ≤ p.active) :
    p.Free = (.error .sliceBoundsOutOfRange, p) := by
  simp only [Buffers.Free]
  rw [if_neg (by omega)]

theorem Calloc_ok_core (p : Buffers) (n : Nat) (r : GoSlice) (p' : Buffers)
    (h : p.Calloc n = (.ok r, p')) :
    ∃ rA p1, p.Alloc n = (.ok rA, p1) ∧
      r = ⟨rA.id, List.replicate rA.data.length 0, rA.cap⟩ ∧
      p' = ⟨p1.arr.set p1.active r, p1.active, p1.fresh⟩ := by
  unfold Buffers.Calloc at h
  rcases halloc : p.Alloc n with ⟨fst, p1⟩
  rw [halloc] at h
  cases fst with
  | ok rA =>
    rw [Prod.mk.injEq] at h
    obtain ⟨h1, h2⟩ := h
    injection h1 with h1'
    subst h1'
    exact ⟨rA, p1, rfl, rfl, h2.symm⟩
  | error e => exact absurd (congrArg Prod.fst h) (by simp)

theorem Alloc_succeeds (p : Buffers) (n : Nat) (h0 : ¬ (p.arr.take p.active).length = 0) :
    ∃ r p1, p.Alloc n = (.ok r, p1) := by
  by_cases hcond : (n : Int) ≤ (bestLoop (n : Int) 0 0 (-1) (p.arr.take p.active)).1
  · exact ⟨_, _, Alloc_bestfit p n h0 hcond⟩
  · exact ⟨_, _, Alloc_growth p n h0 hcond⟩

theorem allocTimes_ok : ∀ (ns : List Nat) (p : Buffers), p.active ≤ p.arr.length →
    ns.length ≤ p.active →
    ∃ p', allocTimes p ns = .ok p' ∧ p'.active = p.active - ns.length ∧
      p'.arr.length = p.arr.length ∧ p'.active ≤ p'.arr.length := by
  intro ns
  induction ns with
  | nil => intro p hwf _; exact ⟨p, rfl, by simp, rfl, hwf⟩
  | cons n ns ih =>
    intro p hwf hlen
    have h0 : ¬ (p.arr.take p.active).length = 0 := by
      rw [List.length_take, Nat.min_eq_left hwf]
      simp only [List.length_cons] at hlen
      omega
    obtain ⟨r, p1, hstep⟩ := Alloc_succeeds p n h0
    obtain ⟨hpos, hact, hlen1, _, _⟩ := Alloc_ok_core p n r p1 hwf hstep
    have hwf1 : p1.active ≤ p1.arr.length := by omega
    simp only [List.length_cons] at hlen
    obtain ⟨p', hrun, hact', hlen', hwf'⟩ := ih p1 hwf1 (by omega)
    refine ⟨p', ?_, by rw [List.length_cons, hact', hact, Nat.sub_sub, Nat.add_comm],
      by rw [hlen', hlen1], hwf'⟩
    simp only [allocTimes]
    rw [hstep]
    exact hrun

/-- Identities of the slot array of a fresh pool. -/
theorem New_ids (c : Nat) : ((New c).arr.map GoSlice.id) = List.range c := by
  simp only [New, List.map_map]
  exact List.map_id_fun.symm ▸ (by simp [Function.comp])

/-- A successful Alloc preserves the pool invariant and pushes the
returned buffer onto the ghost stack. -/
theorem Inv_alloc (p : Buffers) (stk : List GoSlice) (n : Nat) (r : GoSlice) (p' : Buffers)
    (hinv : Inv p stk) (hstep : p.Alloc n = (.ok r, p')) : Inv p' (r :: stk) := by
  obtain ⟨hwf, hdrop, hnd, hbound⟩ := hinv
  obtain ⟨hpos, hact, hlen, hdrop', hcase⟩ := Alloc_ok_core p n r p' hwf hstep
  refine ⟨by omega, by rw [hdrop', hdrop], ?_, ?_⟩
  · rcases hcase with ⟨_, hperm, _⟩ | ⟨_, hid, j, hjlt, hperm⟩
    · exact (hperm.map GoSlice.id).symm.nodup hnd
    · have hmapset : (p.arr.set j r).map GoSlice.id = (p.arr.map GoSlice.id).set j r.id :=
        List.map_set
      have hnotmem : r.id ∉ p.arr.map GoSlice.id := fun hmem =>
        absurd (hbound _ hmem) (by rw [hid]; exact lt_irrefl _)
      have hnd2 : ((p.arr.set j r).map GoSlice.id).Nodup := by
        rw [hmapset]
        exact nodup_set_of_not_mem _ j r.id
          (by rw [List.length_map]; exact lt_of_lt_of_le hjlt hwf) hnd hnotmem
      exact (hperm.map GoSlice.id).symm.nodup hnd2
  · intro x hx
    rcases hcase with ⟨hfr, hperm, _⟩ | ⟨hfr, hid, j, hjlt, hperm⟩
    · rw [hfr]
      exact hbound x ((hperm.map GoSlice.id).mem_iff.mp hx)
    · rw [hfr]
      have hx' : x ∈ (p.arr.set j r).map GoSlice.id :=
        (hperm.map GoSlice.id).mem_iff.mp hx
      rw [List.map_set] at hx'
      rcases List.mem_or_eq_of_mem_set hx' with hmem | hxid
      · exact Nat.lt_succ_of_lt (hbound x hmem)
      · rw [hxid, hid]; exact Nat.lt_succ_self _

/-- Zeroing the checked-out slot at the boundary (what the write loop
of Calloc does through the returned alias) preserves the invariant. -/
theorem Inv_set_boundary (p1 : Buffers) (rA r0 : GoSlice) (stk : List GoSlice)
    (hinv : Inv p1 (rA :: stk)) (hid : r0.id = rA.id) :
    Inv ⟨p1.arr.set p1.active r0, p1.active, p1.fresh⟩ (r0 :: stk) := by
  obtain ⟨hwf, hdrop, hnd, hbound⟩ := hinv
  have hlt : p1.active < p1.arr.length := by
    by_contra hge
    rw [List.drop_eq_nil_iff.mpr (Nat.le_of_not_lt hge)] at hdrop
    exact absurd hdrop (by simp)
  have hget : p1.arr[p1.active] = rA := by
    have hcons := (List.drop_eq_getElem_cons hlt).symm.trans hdrop
    injection hcons
  have hids : (p1.arr.set p1.active r0).map GoSlice.id = p1.arr.map GoSlice.id := by
    rw [List.map_set, hid, ← hget]
    have hmap : (p1.arr.map GoSlice.id).getD p1.active 0 = (p1.arr[p1.active]).id := by
      rw [List.getD_eq_getElem _ _ (by rw [List.length_map]; exact hlt), List.getElem_map]
    rw [← hmap, set_getD_self]
  refine ⟨by simpa using hwf, ?_, by rw [hids]; exact hnd, ?_⟩
  · have hds : (p1.arr.set p1.active r0).drop p1.active =
        (p1.arr.drop p1.active).set 0 r0 := by
      rw [List.drop_set]
      rw [if_neg (by omega), Nat.sub_self]
    rw [hds, hdrop]
    rfl
  · intro x hx
    rw [hids] at hx
    exact hbound x hx

/-- Every reachable state satisfies the pool invariant. -/
theorem reach_inv {p : Buffers} {stk : List GoSlice} (h : Reach p stk) : Inv p stk := by
  induction h with
  | init c =>
    refine ⟨?_, ?_, ?_, ?_⟩
    · simp [New]
    · simp [New]
    · rw [New_ids]; exact List.nodup_range c
    · intro x hx
      rw [New_ids] at hx
      simpa [New] using List.mem_range.mp hx
  | alloc n hreach hstep ih => exact Inv_alloc _ _ n _ _ ih hstep
  | calloc n hreach hstep ih =>
    rename_i p1 stk1 p1' r1
    obtain ⟨rA, pmid, hA, hr0, hp'⟩ := Calloc_ok_core _ n _ _ hstep
    have hinner := Inv_alloc _ _ n _ _ ih hA
    subst hp'
    exact Inv_set_boundary pmid rA r1 stk1 hinner (by rw [hr0])
  | free hreach hstep ih =>
    rename_i p1 stk1 p1' r1
    obtain ⟨hwf, hdrop, hnd, hbound⟩ := ih
    have hlt : p1.active < p1.arr.length := by
      by_contra hge
      rw [List.drop_eq_nil_iff.mpr (Nat.le_of_not_lt hge)] at hdrop
      exact absurd hdrop (by simp)
    rw [Free_ok p1 hlt] at hstep
    rw [Prod.mk.injEq] at hstep
    obtain ⟨_, h2⟩ := hstep
    subst h2
    refine ⟨Nat.succ_le_of_lt hlt, ?_, hnd, hbound⟩
    have : p1.arr.drop (p1.active + 1) = stk1 := by
      have hdd : p1.arr.drop (p1.active + 1) = (p1.arr.drop p1.active).drop 1 := by
        rw [List.drop_drop]
      rw [hdd, hdrop]
      rfl
    exact this

theorem take_set_self (l : List α) (m : Nat) (x : α) : (l.set m x).take m = l.take m := by
  induction l generalizing m with
  | nil => simp
  | cons a t ih =>
    cases m with
    | zero => simp
    | succ m => simp only [List.set_cons_succ, List.take_succ_cons, ih]

theorem take_set_lt (l : List α) (g m : Nat) (x : α) (h : g < m) :
    (l.set g x).take m = (l.take m).set g x := by
  induction l generalizing g m with
  | nil => simp
  | cons a t ih =>
    cases g with
    | zero =>
      cases m with
      | zero => exact absurd h (by omega)
      | succ m => simp
    | succ g =>
      cases m with
      | zero => exact absurd h (by omega)
      | succ m =>
        simp only [List.set_cons_succ, List.take_succ_cons]
        rw [ih g m (Nat.lt_of_succ_lt_succ h)]

/-- C10: when Alloc fails because the free region is empty, the panic
fires before any scan, swap, slot replacement or boundary movement, so
the pool is returned completely unchanged, and the failure happens
exactly when the free region is empty. -/
theorem alloc_failure_leaves_pool_unchanged (p : Buffers) (n : Nat) (e : BufsErr)
    (h : (p.Alloc n).1 = .error e) :
    (p.Alloc n).2 = p ∧ e = BufsErr.allocOutOfBuffers ∧ p.freeRegion = [] := by
  by_cases h0 : (p.arr.take p.active).length = 0
  · rw [Alloc_empty p n h0] at h ⊢
    refine ⟨rfl, ?_, List.length_eq_zero.mp h0⟩
    injection h with h'
    exact h'.symm
  · obtain ⟨r, p1, hstep⟩ := Alloc_succeeds p n h0
    rw [hstep] at h
    exact absurd h (by simp)

/-- C5: the two fatal conditions are recoverable panics carrying
distinct payloads: Alloc panics with the out-of-buffers error value,
Free panics with the slice-bounds runtime error, and the two signals
differ, so calling code can trigger and observe each and tell them
apart. -/
theorem distinct_panic_signals (p q : Buffers) (n : Nat)
    (h1 : p.active = 0) (h2 : q.arr.length ≤ q.active) :
    (p.Alloc n).1 = .error .allocOutOfBuffers ∧
    (q.Free).1 = .error .sliceBoundsOutOfRange ∧
    BufsErr.allocOutOfBuffers ≠ BufsErr.sliceBoundsOutOfRange := by
  refine ⟨?_, ?_, by decide⟩
  · rw [Alloc_empty p n (by rw [h1]; rfl)]
  · rw [Free_err q h2]

/-- C1: the claim fails on the code: after growing the single slot of a
one-slot pool to 20 bytes and freeing it, Alloc 15 returns the whole
20-byte slot, because the best-fit branch returns b[bestI] without
reslicing it to n.  The doc comment of Alloc and Test4 both require
len(r) == n, so this is a code bug, exhibited here by evaluation. -/
theorem alloc_best_fit_length_bug :
    ((((New 1).Alloc 20).2.Free).2.Alloc 15).1 =
      .ok ⟨1, List.replicate 20 0, 20⟩ ∧
    (⟨1, List.replicate 20 0, 20⟩ : GoSlice).len = 20 ∧ (20 : Nat) ≠ 15 := by
  decide

/-- C7: the claim fails on the code for the same root cause as C1: on
the same pool, Calloc 15 receives the whole 20-byte slot from Alloc and
its zeroing loop ranges over all len(r) = 20 bytes, the full backing
capacity of the slot, not only the requested 15. -/
theorem calloc_zeroing_extent_bug :
    ((((New 1).Alloc 20).2.Free).2.Calloc 15).1 =
      .ok ⟨1, List.replicate 20 0, 20⟩ ∧
    (List.replicate 20 (0 : Nat)).length = 20 ∧ (20 : Nat) ≠ 15 := by
  decide

/-- C2: a pool of capacity c permits exactly c successive unmatched
Alloc calls of arbitrary sizes, after which every further Alloc panics
with the out-of-buffers error (capacity 0 therefore fails on the very
first Alloc), and from any reachable state with no outstanding borrow
the next Free, the first excess one, panics with the slice-bounds
error. -/
theorem capacity_exhaustion_and_unbalanced_release (c : Nat) (ns : List Nat)
    (hlen : ns.length = c) (p : Buffers) (hp : Reach p []) :
    (∃ p', allocTimes (New c) ns = .ok p' ∧
      ∀ m, (p'.Alloc m).1 = .error .allocOutOfBuffers) ∧
    (p.Free).1 = .error .sliceBoundsOutOfRange := by
  constructor
  · have hwf : (New c).active ≤ (New c).arr.length := by simp [New]
    obtain ⟨p', hrun, hact, _, _⟩ := allocTimes_ok ns (New c) hwf (by simp [New, hlen])
    refine ⟨p', hrun, ?_⟩
    intro m
    have hact0 : p'.active = 0 := by
      rw [hact, hlen]
      simp [New]
    have h0 : (p'.arr.take p'.active).length = 0 := by
      rw [hact0]
      rfl
    rw [Alloc_empty p' m h0]
  · obtain ⟨hwf, hdrop, _, _⟩ := reach_inv hp
    rw [Free_err p (List.drop_eq_nil_iff.mp hdrop)]

/-- C8: Stats sums the backing capacities of all slots, both the free
region and the checked-out suffix, and it depends only on the slot
array, not on how many slots are checked out; in the embedding it is a
pure function of the pool, touching no state. -/
theorem stats_sums_all_slot_capacities (p q : Buffers)
    (hwf : p.active ≤ p.arr.length) (harr : p.arr = q.arr) :
    p.Stats = (p.freeRegion.map GoSlice.cap).sum +
      ((p.arr.drop p.active).map GoSlice.cap).sum ∧
    p.Stats = q.Stats := by
  have hfold : ∀ (l : List Nat) (a : Nat), l.foldl (· + ·) a = a + l.sum := by
    intro l
    induction l with
    | nil => intro a; simp
    | cons x t ih =>
      intro a
      rw [List.foldl_cons, ih, List.sum_cons, Nat.add_assoc]
  constructor
  · show (p.arr.map GoSlice.cap).foldl (· + ·) 0 = _
    rw [hfold, Nat.zero_add]
    conv_lhs => rw [← List.take_append_drop p.active p.arr]
    rw [List.map_append, List.sum_append]
    rfl
  · show (p.arr.map GoSlice.cap).foldl (· + ·) 0 = (q.arr.map GoSlice.cap).foldl (· + ·) 0
    rw [harr]

/-- C6: in any reachable state with at least one outstanding borrow,
Free succeeds, keeps the slot array unchanged and moves the boundary up
by one, so the slot that becomes free again is exactly the buffer
handed out by the most recent unmatched Alloc or Calloc (the top of the
ghost stack): the new free region is the old one extended with that
very buffer. -/
theorem free_returns_most_recent_borrow (p : Buffers) (r : GoSlice) (stk : List GoSlice)
    (h : Reach p (r :: stk)) :
    ∃ p', p.Free = (.ok (), p') ∧ p'.arr = p.arr ∧ p'.active = p.active + 1 ∧
      p'.freeRegion = p.freeRegion ++ [r] := by
  obtain ⟨hwf, hdrop, _, _⟩ := reach_inv h
  have hlt : p.active < p.arr.length := by
    by_contra hge
    rw [List.drop_eq_nil_iff.mpr (Nat.le_of_not_lt hge)] at hdrop
    exact absurd hdrop (by simp)
  have hget : p.arr[p.active] = r := by
    have hcons := (List.drop_eq_getElem_cons hlt).symm.trans hdrop
    injection hcons
  refine ⟨⟨p.arr, p.active + 1, p.fresh⟩, Free_ok p hlt, rfl, rfl, ?_⟩
  show p.arr.take (p.active + 1) = p.arr.take p.active ++ [r]
  rw [List.take_succ, List.getElem?_eq_getElem hlt, hget]
  rfl

/-- C9: outstanding borrows never alias: in any reachable state the
buffers on the ghost stack of outstanding Alloc and Calloc borrows have
pairwise distinct backing-array identities, because every borrow
occupies a distinct slot of the checked-out region and a checked-out
slot is never scanned again before its matching Free. -/
theorem outstanding_borrows_never_alias (p : Buffers) (stk : List GoSlice)
    (h : Reach p stk) : stk.Pairwise (fun a b => a.id ≠ b.id) := by
  obtain ⟨hwf, hdrop, hnd, _⟩ := reach_inv h
  have hnds : (stk.map GoSlice.id).Nodup := by
    rw [← hdrop, List.map_drop]
    exact hnd.sublist (List.drop_sublist _ _)
  exact List.pairwise_map.mp hnds

/-- C4: when some free slot fits the request, Alloc selects the
smallest fitting free slot, ties broken in favor of the first one in
scan order (every earlier fitting slot is strictly bigger), and returns
exactly that slot value, identity included, allocating nothing new
(the freshness counter is unchanged). -/
theorem best_fit_returns_smallest_fitting_slot (p : Buffers) (n : Nat)
    (hwf : p.active ≤ p.arr.length)
    (hfit : ∃ v ∈ p.freeRegion, n ≤ v.len) :
    ∃ j, j < p.freeRegion.length ∧ n ≤ (p.freeRegion.getD j default).len ∧
      (∀ k, k < p.freeRegion.length → n ≤ (p.freeRegion.getD k default).len →
        (p.freeRegion.getD j default).len ≤ (p.freeRegion.getD k default).len) ∧
      (∀ k, k < j → n ≤ (p.freeRegion.getD k default).len →
        (p.freeRegion.getD j default).len < (p.freeRegion.getD k default).len) ∧
      (p.Alloc n).1 = .ok (p.freeRegion.getD j default) ∧
      (p.Alloc n).2.fresh = p.fresh := by
  simp only [Buffers.freeRegion] at hfit ⊢
  have hbne : p.arr.take p.active ≠ [] := by
    rcases hfit with ⟨v, hv, _⟩
    intro hnil
    rw [hnil] at hv
    exact absurd hv (by simp)
  have h0 : ¬ (p.arr.take p.active).length = 0 := fun hz => hbne (List.length_eq_zero.mp hz)
  have hcond : (n : Int) ≤ (bestLoop (n : Int) 0 0 (-1) (p.arr.take p.active)).1 := by
    have hinv := bestLoop_inv (n : Int) (p.arr.take p.active) [] 0 (-1)
      (Or.inl ⟨rfl, rfl, by simp⟩)
    simp only [List.nil_append, List.length_nil] at hinv
    rcases hinv with ⟨_, _, hnone⟩ | ⟨_, _, _, _, hnB, _, _⟩
    · rcases hfit with ⟨v, hv, hvn⟩
      exact absurd (hnone v hv) (Int.not_lt.mpr (by exact_mod_cast hvn))
    · exact hnB
  obtain ⟨j, hj, hBI, _, hfitj, hmin, hfirst⟩ := bestfit_index n _ hbne hcond
  rw [Alloc_bestfit p n h0 hcond, hBI, Int.toNat_natCast]
  exact ⟨j, hj, hfitj, hmin, hfirst, rfl, rfl⟩

/-- C3 counterexample: on a pool whose two free slots both have length
1 (a tie for largest), Alloc 2 must grow a slot; the loop condition
ln >= biggest updates on ties, so the slot replaced is the SECOND one
(index 1), leaving the slot of identity 0 in the pool.  The claim says
ties are broken in favor of the first slot found in scan order, which
would replace index 0 and leave identity 1 in the pool: the resulting
identity lists differ, refuting the claim. -/
theorem growth_tie_break_counterexample :
    ((Buffers.Alloc ⟨[⟨0, [1], 1⟩, ⟨1, [1], 1⟩], 2, 2⟩ 2).2.arr.map GoSlice.id = [0, 2]) ∧
    ((Buffers.Alloc ⟨[⟨0, [1], 1⟩, ⟨1, [1], 1⟩], 2, 2⟩ 2).2.arr.map GoSlice.id ≠ [1, 2]) := by
  decide

/-- C3 (amended): when no free slot fits, Alloc reallocates the free
slot with the largest current length, ties among equally large slots
broken in favor of the LAST one found in scan order (every later free
slot is strictly smaller), to a fresh slice of exactly n zero bytes
(old content discarded, freshness counter advanced), removes that slot
from the free region and returns the fresh slice. -/
theorem growth_replaces_last_largest_slot (p : Buffers) (n : Nat)
    (hwf : p.active ≤ p.arr.length) (hne : p.freeRegion ≠ [])
    (hnofit : ∀ v ∈ p.freeRegion, v.len < n) :
    ∃ j, j < p.freeRegion.length ∧
      (∀ k, k < p.freeRegion.length →
        (p.freeRegion.getD k default).len ≤ (p.freeRegion.getD j default).len) ∧
      (∀ k, j < k → k < p.freeRegion.length →
        (p.freeRegion.getD k default).len < (p.freeRegion.getD j default).len) ∧
      (p.Alloc n).1 = .ok ⟨p.fresh, List.replicate n 0, n⟩ ∧
      (p.Alloc n).2.fresh = p.fresh + 1 ∧
      ((p.Alloc n).2.freeRegion).Perm (p.freeRegion.eraseIdx j) := by
  simp only [Buffers.freeRegion] at hne hnofit ⊢
  have h0 : ¬ (p.arr.take p.active).length = 0 := fun hz => hne (List.length_eq_zero.mp hz)
  have hlen1 : 1 ≤ (p.arr.take p.active).length := Nat.pos_of_ne_zero h0
  have hnpos : 0 < n := by
    rcases List.exists_mem_of_ne_nil _ hne with ⟨w, hw⟩
    exact Nat.lt_of_le_of_lt (Nat.zero_le _) (hnofit w hw)
  have hcond : ¬ (n : Int) ≤ (bestLoop (n : Int) 0 0 (-1) (p.arr.take p.active)).1 := by
    rw [bestLoop_nofit (n : Int) (p.arr.take p.active) 0 0 (-1)
      (fun v hv => by exact_mod_cast hnofit v hv)]
    intro hc
    have hc' : (n : Int) ≤ 0 := hc
    exact absurd (by exact_mod_cast hc' : n ≤ 0) (by omega)
  obtain ⟨g, hg, hBI, _, hmax, hafter⟩ := biggest_index _ hne
  rw [Alloc_growth p n h0 hcond, hBI, Int.toNat_natCast]
  refine ⟨g, hg, hmax, hafter, rfl, rfl, ?_⟩
  simp only [Buffers.arr, Buffers.active, Buffers.freeRegion]
  have hb1len : ((p.arr.take p.active).set g ⟨p.fresh, List.replicate n 0, n⟩).length =
      (p.arr.take p.active).length := by simp
  have hb2len : ((((p.arr.take p.active).set g ⟨p.fresh, List.replicate n 0, n⟩).set
      ((p.arr.take p.active).length - 1)
      (((p.arr.take p.active).set g ⟨p.fresh, List.replicate n 0, n⟩).getD g default)).set g
      (((p.arr.take p.active).set g ⟨p.fresh, List.replicate n 0, n⟩).getD
        ((p.arr.take p.active).length - 1) default)).length =
      (p.arr.take p.active).length := by simp
  rw [List.take_append_of_le_length (by rw [hb2len]; omega)]
  by_cases hgl : g = (p.arr.take p.active).length - 1
  · subst hgl
    rw [List.set_set, set_getD_self, take_set_self]
    rw [List.eraseIdx_eq_take_drop_succ,
      List.drop_eq_nil_of_le (by omega), List.append_nil]
  · have hglt : g < (p.arr.take p.active).length - 1 := by omega
    rw [take_set_lt _ g _ _ hglt, take_set_self, take_set_lt _ g _ _ hglt]
    have hgetL : ((p.arr.take p.active).set g ⟨p.fresh, List.replicate n 0, n⟩).getD
        ((p.arr.take p.active).length - 1) default =
        (p.arr.take p.active).getD ((p.arr.take p.active).length - 1) default := by
      have hL : (p.arr.take p.active).length - 1 < (p.arr.take p.active).length := by omega
      rw [List.getD_eq_getElem _ _ (by rw [hb1len]; exact hL)]
      rw [List.getD_eq_getElem _ _ hL]
      exact List.getElem_set_ne hgl _
    rw [hgetL, List.set_set]
    have hFlen : g < ((p.arr.take p.active).take ((p.arr.take p.active).length - 1)).length := by
      rw [List.length_take]
      omega
    have h1 := perm_set_eraseIdx ((p.arr.take p.active).take ((p.arr.take p.active).length - 1))
      g ((p.arr.take p.active).getD ((p.arr.take p.active).length - 1) default) default hFlen
    have h2 := (List.perm_append_singleton
      ((p.arr.take p.active).getD ((p.arr.take p.active).length - 1) default)
      (((p.arr.take p.active).take ((p.arr.take p.active).length - 1)).eraseIdx g)).symm
    have h3 : (p.arr.take p.active).eraseIdx g =
        ((p.arr.take p.active).take ((p.arr.take p.active).length - 1)).eraseIdx g ++
          [(p.arr.take p.active).getD ((p.arr.take p.active).length - 1) default] := by
      conv_lhs => rw [← List.take_append_drop ((p.arr.take p.active).length - 1)
        (p.arr.take p.active)]
      rw [List.eraseIdx_append_of_lt_length hFlen]
      congr 1
      rw [List.drop_eq_getElem_cons (by omega), List.drop_eq_nil_of_le (by omega)]
      rw [List.getD_eq_getElem _ _
        ((by omega : (p.arr.take p.active).length - 1 < (p.arr.take p.active).length))]
    rw [h3]
    exact h1.trans h2

/-- Witness for C2: a pool of capacity 1 accepts one Alloc of size 5,
then every further Alloc panics, and on the fresh pool (no outstanding
borrow) the first Free panics. -/
theorem capacity_exhaustion_and_unbalanced_release_witness :
    (∃ p', allocTimes (New 1) [5] = .ok p' ∧
      ∀ m, (p'.Alloc m).1 = .error .allocOutOfBuffers) ∧
    ((New 1).Free).1 = .error .sliceBoundsOutOfRange :=
  capacity_exhaustion_and_unbalanced_release 1 [5] rfl (New 1) (Reach.init 1)

/-- Witness for C3 (amended) on a fresh one-slot pool and request 1:
the only free slot is grown. -/
theorem growth_replaces_last_largest_slot_witness :
    ∃ j, j < ((New 1).freeRegion).length ∧
      (∀ k, k < ((New 1).freeRegion).length →
        (((New 1).freeRegion).getD k default).len ≤
          (((New 1).freeRegion).getD j default).len) ∧
      (∀ k, j < k → k < ((New 1).freeRegion).length →
        (((New 1).freeRegion).getD k default).len <
          (((New 1).freeRegion).getD j default).len) ∧
      ((New 1).Alloc 1).1 = .ok ⟨(New 1).fresh, List.replicate 1 0, 1⟩ ∧
      ((New 1).Alloc 1).2.fresh = (New 1).fresh + 1 ∧
      (((New 1).Alloc 1).2.freeRegion).Perm (((New 1).freeRegion).eraseIdx j) :=
  growth_replaces_last_largest_slot (New 1) 1 (by decide) (by decide) (by decide)

/-- Witness for C4 on a one-slot pool whose free slot has length 2 and
request 1: the slot is reused. -/
theorem best_fit_returns_smallest_fitting_slot_witness :
    ∃ j, j < (Buffers.freeRegion ⟨[⟨1, [7, 7], 2⟩], 1, 2⟩).length ∧
      1 ≤ ((Buffers.freeRegion ⟨[⟨1, [7, 7], 2⟩], 1, 2⟩).getD j default).len ∧
      (∀ k, k < (Buffers.freeRegion ⟨[⟨1, [7, 7], 2⟩], 1, 2⟩).length →
        1 ≤ ((Buffers.freeRegion ⟨[⟨1, [7, 7], 2⟩], 1, 2⟩).getD k default).len →
        ((Buffers.freeRegion ⟨[⟨1, [7, 7], 2⟩], 1, 2⟩).getD j default).len ≤
          ((Buffers.freeRegion ⟨[⟨1, [7, 7], 2⟩], 1, 2⟩).getD k default).len) ∧
      (∀ k, k < j →
        1 ≤ ((Buffers.freeRegion ⟨[⟨1, [7, 7], 2⟩], 1, 2⟩).getD k default).len →
        ((Buffers.freeRegion ⟨[⟨1, [7, 7], 2⟩], 1, 2⟩).getD j default).len <
          ((Buffers.freeRegion ⟨[⟨1, [7, 7], 2⟩], 1, 2⟩).getD k default).len) ∧
      (Buffers.Alloc ⟨[⟨1, [7, 7], 2⟩], 1, 2⟩ 1).1 =
        .ok ((Buffers.freeRegion ⟨[⟨1, [7, 7], 2⟩], 1, 2⟩).getD j default) ∧
      (Buffers.Alloc ⟨[⟨1, [7, 7], 2⟩], 1, 2⟩ 1).2.fresh = 2 :=
  best_fit_returns_smallest_fitting_slot ⟨[⟨1, [7, 7], 2⟩], 1, 2⟩ 1 (by decide) (by decide)

/-- Witness for C5 on the empty pool: both panics observed, with
distinct payloads. -/
theorem distinct_panic_signals_witness :
    ((New 0).Alloc 7).1 = .error .allocOutOfBuffers ∧
    ((New 0).Free).1 = .error .sliceBoundsOutOfRange ∧
    BufsErr.allocOutOfBuffers ≠ BufsErr.sliceBoundsOutOfRange :=
  distinct_panic_signals (New 0) (New 0) 7 rfl (by decide)

/-- Witness for C6: after one Alloc on a one-slot pool, Free returns
exactly the allocated buffer to the free region. -/
theorem free_returns_most_recent_borrow_witness :
    ∃ p', (Buffers.Free ⟨[⟨1, [0, 0, 0], 3⟩], 0, 2⟩) = (.ok (), p') ∧
      p'.arr = (⟨[⟨1, [0, 0, 0], 3⟩], 0, 2⟩ : Buffers).arr ∧
      p'.active = (⟨[⟨1, [0, 0, 0], 3⟩], 0, 2⟩ : Buffers).active + 1 ∧
      p'.freeRegion =
        (⟨[⟨1, [0, 0, 0], 3⟩], 0, 2⟩ : Buffers).freeRegion ++ [⟨1, [0, 0, 0], 3⟩] :=
  free_returns_most_recent_borrow ⟨[⟨1, [0, 0, 0], 3⟩], 0, 2⟩ ⟨1, [0, 0, 0], 3⟩ []
    (Reach.alloc 3 (Reach.init 1) (by decide))

/-- Witness for C8 on a two-slot pool with one slot checked out. -/
theorem stats_sums_all_slot_capacities_witness :
    (⟨[⟨0, [5], 1⟩, ⟨1, [], 0⟩], 1, 2⟩ : Buffers).Stats =
      ((⟨[⟨0, [5], 1⟩, ⟨1, [], 0⟩], 1, 2⟩ : Buffers).freeRegion.map GoSlice.cap).sum +
        (((⟨[⟨0, [5], 1⟩, ⟨1, [], 0⟩], 1, 2⟩ : Buffers).arr.drop 1).map GoSlice.cap).sum ∧
    (⟨[⟨0, [5], 1⟩, ⟨1, [], 0⟩], 1, 2⟩ : Buffers).Stats =
      (⟨[⟨0, [5], 1⟩, ⟨1, [], 0⟩], 2, 2⟩ : Buffers).Stats :=
  stats_sums_all_slot_capacities ⟨[⟨0, [5], 1⟩, ⟨1, [], 0⟩], 1, 2⟩
    ⟨[⟨0, [5], 1⟩, ⟨1, [], 0⟩], 2, 2⟩ (by decide) rfl

/-- Witness for C9: two outstanding borrows on a two-slot pool have
distinct backing identities. -/
theorem outstanding_borrows_never_alias_witness :
    ([⟨3, [0, 0], 2⟩, ⟨2, [0], 1⟩] : List GoSlice).Pairwise (fun a b => a.id ≠ b.id) :=
  outstanding_borrows_never_alias ⟨[⟨3, [0, 0], 2⟩, ⟨2, [0], 1⟩], 0, 4⟩
    [⟨3, [0, 0], 2⟩, ⟨2, [0], 1⟩]
    (Reach.alloc 2
      ((Reach.alloc 1 (Reach.init 2) (by decide)) :
        Reach ⟨[⟨0, [], 0⟩, ⟨2, [0], 1⟩], 1, 3⟩ [⟨2, [0], 1⟩])
      (by decide))

/-- Witness for C10: a failing Alloc on the empty pool returns the pool
unchanged. -/
theorem alloc_failure_leaves_pool_unchanged_witness :
    ((New 0).Alloc 3).2 = New 0 ∧
    BufsErr.allocOutOfBuffers = BufsErr.allocOutOfBuffers ∧ (New 0).freeRegion = [] :=
  alloc_failure_leaves_pool_unchanged (New 0) 3 .allocOutOfBuffers (by decide)

end Bufs
